import Mathlib

/-!
# Verification of the rule evaluation core

A shallow embedding of `packages/backend/rule-engine/src/rule-engine.ts`
(together with its types in `types/index.ts`) into Lean 4, and proofs of the
specified properties of the rule evaluation core.

JavaScript runtime values are modelled by the inductive `JsVal`; JS numbers are
restricted to integers (no claim under verification depends on non-integral
numbers or IEEE-754 specifics).  Objects are modelled as insertion-ordered
association lists, matching JS own-property order.  Mutation of the working
record is modelled functionally (value-tree semantics); reference sharing and
in-place mutation, which matter for the frame property of the execution
context, are modelled separately by an explicit heap (see the `HeapModel`
section below).
-/

namespace RuleFlow

/-- A JavaScript runtime value (numbers restricted to integers). -/
inductive JsVal where
  | undefV : JsVal
  | nullV : JsVal
  | bool (b : Bool) : JsVal
  | num (n : Int) : JsVal
  | str (s : String) : JsVal
  | arr (elems : List JsVal) : JsVal
  | obj (fields : List (String × JsVal)) : JsVal

/-- A JS object: insertion-ordered association list of own properties. -/
abbrev Obj := List (String × JsVal)

/-- JS truthiness: `undefined`, `null`, `false`, `0` and `""` are falsy. -/
def jsFalsy : JsVal → Bool
  | .undefV => true
  | .nullV => true
  | .bool b => !b
  | .num n => n == 0
  | .str s => s == ""
  | .arr _ => false
  | .obj _ => false

mutual

/-- JS `String(v)` coercion (arrays join their elements with `,`). -/
def jsToString : JsVal → String
  | .undefV => "undefined"
  | .nullV => "null"
  | .bool b => if b then "true" else "false"
  | .num n => toString n
  | .str s => s
  | .arr xs => String.intercalate "," (jsToStringList xs)
  | .obj _ => "[object Object]"

/-- String coercion of each element of an array. -/
def jsToStringList : List JsVal → List String
  | [] => []
  | x :: xs => jsToString x :: jsToStringList xs

end

/-- JS `ToNumber` coercion; `none` models `NaN` (non-numeric strings,
`undefined`, objects and arrays of length ≠ 1 are not modelled numerically). -/
def jsToNumber : JsVal → Option Int
  | .num n => some n
  | .bool b => some (if b then 1 else 0)
  | .nullV => some 0
  | .str s => if s.trim = "" then some 0 else s.trim.toInt?
  | _ => none

/-- JS strict equality `===`.  Two object or array values are compared by
reference in JS; the pure model has no reference identity, so they are
modelled as never strictly equal (rule literals and record values are
distinct objects after JSON parsing). -/
def jsStrictEq : JsVal → JsVal → Bool
  | .undefV, .undefV => true
  | .nullV, .nullV => true
  | .bool a, .bool b => a == b
  | .num a, .num b => a == b
  | .str a, .str b => a == b
  | _, _ => false

/-- JS relational comparison used by `<`, `>`, `<=`, `>=`: two strings compare
lexicographically, otherwise both sides are coerced to numbers; `none` models
a `NaN` operand, for which every relational operator yields `false`. -/
def jsCompare : JsVal → JsVal → Option Ordering
  | .str a, .str b => some (compare a b)
  | a, b =>
    match jsToNumber a, jsToNumber b with
    | some x, some y => some (compare x y)
    | _, _ => none

/-- First binding for a key in an object, if any. -/
def objGet? (o : Obj) (k : String) : Option JsVal :=
  (o.find? (fun kv => kv.1 == k)).map (·.2)

/-- JS property read on an object: `undefined` when the key is absent. -/
def objGet (o : Obj) (k : String) : JsVal :=
  (objGet? o k).getD .undefV

/-- JS property write: overwrite the existing binding in place (keeping its
position, as JS objects do), or append a new binding at the end. -/
def objSet (o : Obj) (k : String) (v : JsVal) : Obj :=
  match o with
  | [] => [(k, v)]
  | (k', v') :: rest =>
    if k' = k then (k', v) :: rest else (k', v') :: objSet rest k v

/-- JS `delete o[k]`: remove the binding for `k`. -/
def objDelete (o : Obj) (k : String) : Obj :=
  o.filter (fun kv => kv.1 ≠ k)

/-- JS object spread `{...a, ...b}`: start from `a` and assign every own
property of `b` in order; a key present in both keeps `a`'s position but
takes `b`'s value. -/
def jsMergeObj (a b : Obj) : Obj :=
  b.foldl (fun acc kv => objSet acc kv.1 kv.2) a

/-- Last binding for a key in a property list (the value JS spread keeps when
the right operand itself repeats a key). -/
def lookupLast (o : Obj) (k : String) : Option JsVal :=
  (o.reverse.find? (fun kv => kv.1 == k)).map (·.2)

/-- JS indexing `current?.[part]` as used by `getNestedValue`: property read
on objects; `length` and numeric indices on arrays and strings; `undefined`
on primitives, `null` and `undefined`. -/
def jsIndex (v : JsVal) (part : String) : JsVal :=
  match v with
  | .obj fields => objGet fields part
  | .arr xs =>
    if part = "length" then .num xs.length
    else match part.toNat? with
      | some i => (xs.get? i).getD .undefV
      | none => .undefV
  | .str s =>
    if part = "length" then .num s.length
    else match part.toNat? with
      | some i =>
        match s.toList.get? i with
        | some c => .str (String.singleton c)
        | none => .undefV
      | none => .undefV
  | _ => .undefV

/-- Splitter worker over the character list (accumulating the current
segment reversed). -/
def splitDotsAux : List Char → List Char → List String
  | [], acc => [String.mk acc.reverse]
  | c :: cs, acc =>
    if c = '.' then String.mk acc.reverse :: splitDotsAux cs []
    else splitDotsAux cs (c :: acc)

/-- `path.split('.')`: structural reimplementation of splitting on the dot
character (`String.splitOn` is compiled by well-founded recursion and does
not reduce inside the kernel; this version computes the same segment list:
`"a.b" ↦ ["a","b"]`, `"" ↦ [""]`, `"a." ↦ ["a",""]`). -/
def splitDots (s : String) : List String :=
  splitDotsAux s.toList []

/-- `getNestedValue(obj, path)`:
`path.split('.').reduce((current, part) => current?.[part], obj)`. -/
def getNestedValue (v : JsVal) (path : String) : JsVal :=
  (splitDots path).foldl jsIndex v

/-- `ExecutionContext` from `types/index.ts`.  Optional interface properties
are `Option`s; an absent optional property is simply not an own property of
the context object. -/
structure ExecutionContext where
  userId : Option String := none
  userRole : String
  permissions : List String
  organizationId : Option String := none
  country : String
  region : Option String := none
  locale : String
  timezone : Option String := none
  deviceType : String
  userAgent : Option String := none
  isMobile : Bool
  programId : Option String := none
  issuerId : Option String := none
  customerId : Option String := none
  data : Obj
  correlationId : String
  sessionId : Option String := none
  timestamp : Int
  featureFlags : Option (List (String × Bool)) := none

/-- Property list contributed by an optional string property. -/
def optStr (k : String) : Option String → Obj
  | none => []
  | some s => [(k, .str s)]

/-- The execution context viewed as a JS object (the own-property list that
`{...context}` spreads and that `getNestedValue(context, path)` reads). -/
def ctxToObj (c : ExecutionContext) : Obj :=
  optStr "userId" c.userId
    ++ [("userRole", .str c.userRole),
        ("permissions", .arr (c.permissions.map .str))]
    ++ optStr "organizationId" c.organizationId
    ++ [("country", .str c.country)]
    ++ optStr "region" c.region
    ++ [("locale", .str c.locale)]
    ++ optStr "timezone" c.timezone
    ++ [("deviceType", .str c.deviceType)]
    ++ optStr "userAgent" c.userAgent
    ++ [("isMobile", .bool c.isMobile)]
    ++ optStr "programId" c.programId
    ++ optStr "issuerId" c.issuerId
    ++ optStr "customerId" c.customerId
    ++ [("data", .obj c.data),
        ("correlationId", .str c.correlationId)]
    ++ optStr "sessionId" c.sessionId
    ++ [("timestamp", .num c.timestamp)]
    ++ (match c.featureFlags with
        | none => []
        | some fs => [("featureFlags", .obj (fs.map (fun kv => (kv.1, .bool kv.2))))])

/-- `getFieldValue(field, data, context)`: a path prefixed `context.` resolves
against the context object, every other path against the record. -/
def getFieldValue (field : String) (data : Obj) (ctx : ExecutionContext) : JsVal :=
  if field.startsWith "context." then
    getNestedValue (.obj (ctxToObj ctx)) (field.drop 8)
  else
    getNestedValue (.obj data) field

/-- The twelve members of the `RuleOperator` string union. -/
inductive Op where
  | eq | ne | gt | gte | lt | lte
  | inOp | ninOp
  | contains | startsWith | endsWith | matches

/-- The third-party facilities the engine's code calls into: the two
expression libraries that `ExpressionEvaluatorImpl` (the repository's
`expression-evaluator.ts`) dispatches between — `expr-eval`'s
`Parser.evaluate` and `jexl`'s `evalSync`, both external npm packages — and
the JS `RegExp` engine used by the `matches` operator (pattern compile +
test, which may fail on an invalid pattern).  Each is a pure function of the
expression/pattern and the flat environment/string it is handed (§4.5: no
ambient state); a thrown library error is an `.error`. -/
structure Host where
  parserEvaluate : String → Obj → Except String JsVal
  jexlEvalSync : String → Obj → Except String JsVal
  regexTest : String → String → Except String Bool

/-- A character matched by the class `[\d\s+\-*/(). ]` of
`isSimpleMathExpression` (whitespace is modelled by its ASCII members; the
exotic Unicode whitespace `\s` also accepts is irrelevant to every claim). -/
def isMathChar (c : Char) : Bool :=
  c.isDigit || c = ' ' || c = '\t' || c = '\n' || c = '\r' ||
  c = '+' || c = '-' || c = '*' || c = '/' || c = '(' || c = ')' || c = '.'

/-- `ExpressionEvaluatorImpl.isSimpleMathExpression`:
`/^[\d\s+\-*/(). ]+$/.test(expression)` — non-empty and made only of digits,
whitespace and arithmetic punctuation. -/
def isSimpleMathExpression (e : String) : Bool :=
  !e.toList.isEmpty && e.toList.all isMathChar

/-- `ExpressionEvaluatorImpl.evaluate` (`expression-evaluator.ts`): a simple
math expression goes to `expr-eval`'s parser, everything else to `jexl`; a
throw from either library is caught and re-thrown wrapped in
`Expression evaluation failed: <message>`. -/
def evaluateExpression (h : Host) (expression : String) (context : Obj) :
    Except String JsVal :=
  match (if isSimpleMathExpression expression then
           h.parserEvaluate expression context
         else h.jexlEvalSync expression context) with
  | .ok v => .ok v
  | .error msg => .error ("Expression evaluation failed: " ++ msg)

/-- `evaluateSimpleCondition`: `field op value` with the operator semantics of
the `switch` in `rule-engine.ts`.  The `Op` inductive is closed exactly like
the TS union, so the `default: throw Unknown operator` arm has no inhabitant
in the model. -/
def evaluateSimpleCondition (h : Host) (field : String) (op : Op) (value : JsVal)
    (data : Obj) (ctx : ExecutionContext) : Except String Bool :=
  let fieldValue := getFieldValue field data ctx
  match op with
  | .eq => .ok (jsStrictEq fieldValue value)
  | .ne => .ok (!jsStrictEq fieldValue value)
  | .gt => .ok (jsCompare fieldValue value == some .gt)
  | .gte => .ok (jsCompare fieldValue value == some .gt
                 || jsCompare fieldValue value == some .eq)
  | .lt => .ok (jsCompare fieldValue value == some .lt)
  | .lte => .ok (jsCompare fieldValue value == some .lt
                 || jsCompare fieldValue value == some .eq)
  | .inOp =>
    .ok (match value with
         | .arr xs => xs.any (fun x => jsStrictEq x fieldValue)
         | _ => false)
  | .ninOp =>
    .ok (match value with
         | .arr xs => !xs.any (fun x => jsStrictEq x fieldValue)
         | _ => false)
  | .contains =>
    .ok (((jsToString fieldValue).splitOn (jsToString value)).length > 1
         || jsToString value == "")
  | .startsWith => .ok ((jsToString fieldValue).startsWith (jsToString value))
  | .endsWith => .ok ((jsToString fieldValue).endsWith (jsToString value))
  | .matches => h.regexTest (jsToString value) (jsToString fieldValue)

/-- `Condition` from `types/index.ts`: either a `SimpleCondition` (the type
guard `isSimpleCondition` tests for `field`/`op` properties, which only the
simple shape has) or a `ComplexCondition` whose three combinator properties
are each optional. -/
inductive Condition where
  | simple (field : String) (op : Op) (value : JsVal)
  | complex (allC : Option (List Condition)) (anyC : Option (List Condition))
      (notC : Option Condition)

mutual

/-- `evaluateCondition` / `evaluateComplexCondition`: the complex case tests
`condition.all`, then `condition.any`, then `condition.not` for truthiness
(an empty array is truthy in JS, `undefined` is not) and falls through to
`false`. -/
def evaluateCondition (h : Host) (data : Obj) (ctx : ExecutionContext) :
    Condition → Except String Bool
  | .simple field op value => evaluateSimpleCondition h field op value data ctx
  | .complex allC anyC notC =>
    match allC with
    | some cs => evaluateAllList h data ctx cs
    | none =>
      match anyC with
      | some cs => evaluateAnyList h data ctx cs
      | none =>
        match notC with
        | some c =>
          match evaluateCondition h data ctx c with
          | .ok b => .ok (!b)
          | .error e => .error e
        | none => .ok false

/-- `condition.all.every(c => this.evaluateCondition(c, data, context))`:
short-circuits on the first `false` child; a child that throws aborts the
whole evaluation. -/
def evaluateAllList (h : Host) (data : Obj) (ctx : ExecutionContext) :
    List Condition → Except String Bool
  | [] => .ok true
  | c :: cs =>
    match evaluateCondition h data ctx c with
    | .error e => .error e
    | .ok true => evaluateAllList h data ctx cs
    | .ok false => .ok false

/-- `condition.any.some(c => this.evaluateCondition(c, data, context))`:
short-circuits on the first `true` child. -/
def evaluateAnyList (h : Host) (data : Obj) (ctx : ExecutionContext) :
    List Condition → Except String Bool
  | [] => .ok false
  | c :: cs =>
    match evaluateCondition h data ctx c with
    | .error e => .error e
    | .ok true => .ok true
    | .ok false => evaluateAnyList h data ctx cs

end

/-- Worker for `setFieldValue`: walk the already-split path segments through
the value tree.  Mirrors the loop in `rule-engine.ts`: a falsy intermediate
value is replaced by a fresh `{}`; the final segment is assigned.  Property
assignment on a primitive is a strict-mode `TypeError` (`.error`); writes to
array indices beyond the current length and expando properties on arrays are
outside the value model and also map to `.error`.  On the error path JS keeps
intermediate objects it already created; the pure model returns only the
error (the frame question this raises is settled in the heap model below). -/
def setAtPath : List String → JsVal → JsVal → Except String JsVal
  | [], _, _ => .error "empty path"
  | [last], .obj fields, v => .ok (.obj (objSet fields last v))
  | [last], .arr xs, v =>
    (match last.toNat? with
     | some i =>
       if i < xs.length then .ok (.arr (xs.set i v))
       else if i = xs.length then .ok (.arr (xs ++ [v]))
       else .error "array write beyond length not modelled"
     | none => .error "array expando property not modelled")
  | [_], _, _ => .error "TypeError: cannot create property on primitive"
  | p :: q :: rest, .obj fields, v =>
    let child := objGet fields p
    let child' := if jsFalsy child then .obj [] else child
    (setAtPath (q :: rest) child' v).map (fun nc => .obj (objSet fields p nc))
  | p :: q :: rest, .arr xs, v =>
    (match p.toNat? with
     | some i =>
       let child := (xs.get? i).getD .undefV
       let child' := if jsFalsy child then .obj [] else child
       (setAtPath (q :: rest) child' v).bind (fun nc =>
         if i < xs.length then .ok (.arr (xs.set i nc))
         else if i = xs.length then .ok (.arr (xs ++ [nc]))
         else .error "array write beyond length not modelled")
     | none => .error "array expando property not modelled")
  | _ :: _ :: _, _, _ => .error "TypeError: cannot create property on primitive"

/-- `setFieldValue(field, value, data)`: split the field on `.` and walk,
creating intermediate objects for falsy segments. -/
def setFieldValue (field : String) (value : JsVal) (data : Obj) :
    Except String Obj :=
  match setAtPath (splitDots field) (.obj data) value with
  | .ok (.obj o) => .ok o
  | .ok _ => .error "unreachable: root is an object"
  | .error e => .error e

/-- Replace the value at an existing path inside a value tree (used to model
the in-place `current.push(...)` of the `append` action once
`getFieldValue` has resolved the path to an array).  Where the path does not
resolve the tree is returned unchanged. -/
def replaceAtPath : List String → JsVal → JsVal → JsVal
  | [p], .obj fields, nv => .obj (objSet fields p nv)
  | p :: q :: rest, .obj fields, nv =>
    (match objGet? fields p with
     | some child => .obj (objSet fields p (replaceAtPath (q :: rest) child nv))
     | none => .obj fields)
  | [p], .arr xs, nv =>
    (match p.toNat? with
     | some i => .arr (xs.set i nv)
     | none => .arr xs)
  | p :: q :: rest, .arr xs, nv =>
    (match p.toNat? with
     | some i =>
       (match xs.get? i with
        | some child => .arr (xs.set i (replaceAtPath (q :: rest) child nv))
        | none => .arr xs)
     | none => .arr xs)
  | _, v, _ => v

/-- The five members of the `RuleAction.type` string union (`'call'` is a
fifth variant beyond Set/Append/Remove/Calculate). -/
inductive ActionType where
  | set | append | remove | calculate | call

/-- `RuleAction` from `types/index.ts`.  `value = none` models an absent (or
`undefined`) `value` property, which is exactly what `action.value !==
undefined` tests; the unused `function`/`params` properties are omitted. -/
structure RuleAction where
  type : ActionType
  field : Option String := none
  value : Option JsVal := none
  expression : Option String := none

/-- Truthiness of an optional string property (`action.field &&`,
`action.expression &&`): present and non-empty. -/
def strTruthy : Option String → Bool
  | none => false
  | some s => s ≠ ""

/-- The flat context `{ ...data, ...context }` handed to the expression
evaluator by the `set`-with-expression and `calculate` action branches: the
record's fields spread first, then every own property of the execution
context. -/
def actionEnv (data : Obj) (ctx : ExecutionContext) : Obj :=
  jsMergeObj data (ctxToObj ctx)

/-- One arm of the `switch (action.type)` in `executeActions`: returns the
updated record and the increment of the `executed` counter, or the error the
arm throws (which the surrounding `catch` logs and rethrows). -/
def runAction (h : Host) (a : RuleAction) (data : Obj) (ctx : ExecutionContext) :
    Except String (Obj × Nat) :=
  match a.type with
  | .set =>
    if strTruthy a.field ∧ a.value.isSome then
      (setFieldValue (a.field.getD "") (a.value.getD .undefV) data).map (fun d => (d, 1))
    else if strTruthy a.field ∧ strTruthy a.expression then
      (evaluateExpression h (a.expression.getD "") (actionEnv data ctx)).bind
        (fun v => (setFieldValue (a.field.getD "") v data).map (fun d => (d, 1)))
    else .ok (data, 0)
  | .append =>
    if strTruthy a.field ∧ a.value.isSome then
      let field := a.field.getD ""
      match getFieldValue field data ctx with
      | .arr xs =>
        -- `current.push(value)` mutates the resolved array in place.  When
        -- the path resolves inside the record the pure model replaces the
        -- array there; a `context.`-prefixed path mutates an array owned by
        -- the context, which only the heap model can show — the record is
        -- unchanged but the counter still increments.
        if field.startsWith "context." then .ok (data, 1)
        else .ok ((match replaceAtPath (splitDots field) (.obj data)
                          (.arr (xs ++ [a.value.getD .undefV])) with
                   | .obj o => o
                   | _ => data), 1)
      | _ => .ok (data, 0)
    else .ok (data, 0)
  | .remove =>
    if strTruthy a.field then
      -- `delete data[action.field]`: the whole field string is used as a
      -- single top-level key; no dot splitting happens here.
      .ok (objDelete data (a.field.getD ""), 1)
    else .ok (data, 0)
  | .calculate =>
    if strTruthy a.field ∧ strTruthy a.expression then
      (evaluateExpression h (a.expression.getD "") (actionEnv data ctx)).bind
        (fun v => (setFieldValue (a.field.getD "") v data).map (fun d => (d, 1)))
    else .ok (data, 0)
  | .call =>
    -- `this.logger.warn('Function call actions not yet implemented')` and
    -- nothing else: no record change, no counter increment, no throw.
    .ok (data, 0)

/-- `executeActions(actions, data, context)`: actions run in list order; the
per-action `catch` rethrows, so the first failing action aborts the rest.
Returns the record after the actions that ran, the `executed` count, and the
propagated error if one was thrown. -/
def executeActions (h : Host) :
    List RuleAction → Obj → ExecutionContext → Obj × Nat × Option String
  | [], data, _ => (data, 0, none)
  | a :: rest, data, ctx =>
    match runAction h a data ctx with
    | .ok (d1, inc) =>
      let r := executeActions h rest d1 ctx
      (r.1, inc + r.2.1, r.2.2)
    | .error msg => (data, 0, some msg)

/-- `RuleScope` from `types/index.ts` (`organizationId` is declared on the
type but never consulted by `filterRulesByScope`). -/
structure RuleScope where
  programId : Option (List String) := none
  issuerId : Option (List String) := none
  country : Option (List String) := none
  role : Option (List String) := none
  organizationId : Option (List String) := none

/-- `Rule` from `types/index.ts`; `when`/`then` are Lean keywords, so the
condition and action list are named `whenC`/`thenA`.  Authoring metadata
(description, createdBy, …) is never read by the engine and is omitted. -/
structure Rule where
  ruleId : String
  name : String
  version : String
  enabled : Bool
  scope : Option RuleScope := none
  whenC : Condition
  thenA : List RuleAction
  priority : Int
  stopOnMatch : Option Bool := none

/-- The body of the `filter` callback in `filterRulesByScope` for one scope:
a dimension restricts only when present and non-empty, and then the context's
value for that dimension must be a member (a context lacking `programId` or
`issuerId` fails a populated dimension). -/
def scopeAllows (scope : RuleScope) (ctx : ExecutionContext) : Bool :=
  (match scope.programId with
   | some l =>
     if l.length > 0 then
       (match ctx.programId with
        | some p => l.contains p
        | none => false)
     else true
   | none => true) &&
  (match scope.issuerId with
   | some l =>
     if l.length > 0 then
       (match ctx.issuerId with
        | some i => l.contains i
        | none => false)
     else true
   | none => true) &&
  (match scope.country with
   | some l => if l.length > 0 then l.contains ctx.country else true
   | none => true) &&
  (match scope.role with
   | some l => if l.length > 0 then l.contains ctx.userRole else true
   | none => true)

/-- `filterRulesByScope(rules, context)`: a disabled rule is never kept; a
rule without a scope always is. -/
def filterRulesByScope (rules : List Rule) (ctx : ExecutionContext) : List Rule :=
  rules.filter (fun rule =>
    rule.enabled &&
    (match rule.scope with
     | none => true
     | some s => scopeAllows s ctx))

/-- Insert a rule into an already-ordered list, before the first rule of
lower or equal priority (later-inserted rules of equal priority stay after
earlier ones, which makes the sort below stable). -/
def insertByPriority (r : Rule) : List Rule → List Rule
  | [] => [r]
  | x :: xs =>
    if x.priority ≤ r.priority then r :: x :: xs
    else x :: insertByPriority r xs

/-- `sortRulesByPriority(rules)`:
`[...rules].sort((a, b) => b.priority - a.priority)`.  ES2019
`Array.prototype.sort` is specified to be stable, and the comparator is
consistent on integer priorities, so the result is uniquely determined:
descending priority with ties in input order.  The model realises exactly
that order as a stable insertion sort. -/
def sortRulesByPriority : List Rule → List Rule
  | [] => []
  | r :: rs => insertByPriority r (sortRulesByPriority rs)

/-- The `strategy` union of `RuleSet`. -/
inductive Strategy where
  | firstMatch | all | priorityOrder
deriving DecidableEq

/-- `RuleSet` from `types/index.ts` (metadata lists unused by the engine are
omitted). -/
structure RuleSet where
  ruleSetId : String
  name : String
  version : String
  rules : List Rule
  strategy : Strategy

/-- `RuleExecutionTrace` (the wall-clock `executionTimeMs` is omitted from
the model). -/
structure RuleExecutionTrace where
  ruleId : String
  ruleName : String
  matched : Bool
  conditionResult : Option Bool := none
  actionsExecuted : Option Nat := none
  error : Option String := none

/-- `RuleExecutionError` (the `stack` string and wall-clock `timestamp` are
omitted from the model). -/
structure RuleExecutionError where
  ruleId : String
  error : String

/-- The `metadata` part of `RuleExecutionResult` (wall-clock
`executionTimeMs` omitted). -/
structure ResultMetadata where
  rulesEvaluated : Nat
  rulesMatched : Nat
  correlationId : String

/-- `RuleExecutionResult` from `types/index.ts`. -/
structure RuleExecutionResult where
  success : Bool
  data : Obj
  executionTrace : List RuleExecutionTrace
  errors : Option (List RuleExecutionError) := none
  metadata : ResultMetadata

/-- `RuleExecutionRequest`.  The TS type requires `context`, but nothing at
runtime stops a caller from omitting it, and the claims quantify over such
malformed requests, so the model keeps it optional. -/
structure RuleExecutionRequest where
  ruleSetId : String
  context : Option ExecutionContext
  data : Option Obj := none

/-- `rule.stopOnMatch ||` tests the optional flag for truthiness. -/
def optTrue : Option Bool → Bool
  | some true => true
  | _ => false

/-- Accumulated state of the `for (const rule of sortedRules)` loop. -/
structure LoopResult where
  data : Obj
  trace : List RuleExecutionTrace
  errors : List RuleExecutionError
  rulesMatched : Nat

/-- The rule loop of `execute` (step 4): evaluate each rule's condition; on
a throw, push an error entry and an error trace and continue; on a match run
the actions (an action throw again records error + trace and continues); a
successful match breaks the loop when the rule sets `stopOnMatch` or the
strategy is `first-match`. -/
def runRules (h : Host) (strategy : Strategy) :
    List Rule → Obj → ExecutionContext → LoopResult
  | [], data, _ => ⟨data, [], [], 0⟩
  | r :: rest, data, ctx =>
    match evaluateCondition h data ctx r.whenC with
    | .error e =>
      let res := runRules h strategy rest data ctx
      ⟨res.data, ⟨r.ruleId, r.name, false, none, none, some e⟩ :: res.trace,
        ⟨r.ruleId, e⟩ :: res.errors, res.rulesMatched⟩
    | .ok false =>
      let res := runRules h strategy rest data ctx
      ⟨res.data, ⟨r.ruleId, r.name, false, some false, none, none⟩ :: res.trace,
        res.errors, res.rulesMatched⟩
    | .ok true =>
      let act := executeActions h r.thenA data ctx
      match act.2.2 with
      | some e =>
        let res := runRules h strategy rest act.1 ctx
        ⟨res.data, ⟨r.ruleId, r.name, false, none, none, some e⟩ :: res.trace,
          ⟨r.ruleId, e⟩ :: res.errors, res.rulesMatched⟩
      | none =>
        if optTrue r.stopOnMatch || strategy = .firstMatch then
          ⟨act.1, [⟨r.ruleId, r.name, true, some true, some act.2.1, none⟩], [], 1⟩
        else
          let res := runRules h strategy rest act.1 ctx
          ⟨res.data,
            ⟨r.ruleId, r.name, true, some true, some act.2.1, none⟩ :: res.trace,
            res.errors, res.rulesMatched + 1⟩

/-- `execute(request)`.  The ruleset provider abstracts
`RuleStorage.getRuleSet` (§6: `getRuleSet(rulesetId) -> RuleSet | absent`;
the storage class returns `null` on any retrieval failure and never throws).
The destructuring and the merge `{ ...context.data, ...requestData }` run
BEFORE the `try` block, so a request without a context rejects with a
`TypeError` instead of producing a result; everything inside the `try` is
converted to a structured result by the inner per-rule `catch` or the outer
`catch`. -/
def execute (h : Host) (provider : String → Option RuleSet)
    (req : RuleExecutionRequest) : Except String RuleExecutionResult :=
  match req.context with
  | none => .error "TypeError: Cannot read properties of undefined (reading 'data')"
  | some ctx =>
    let data := jsMergeObj ctx.data (req.data.getD [])
    .ok
      (match provider req.ruleSetId with
       | none =>
         { success := false
           data := data
           executionTrace := []
           errors := some [⟨"SYSTEM", "RuleSet not found: " ++ req.ruleSetId⟩]
           metadata := ⟨0, 0, ctx.correlationId⟩ }
       | some ruleSet =>
         let sorted := sortRulesByPriority (filterRulesByScope ruleSet.rules ctx)
         let res := runRules h ruleSet.strategy sorted data ctx
         { success := res.errors.isEmpty
           data := res.data
           executionTrace := res.trace
           errors := if res.errors.isEmpty then none else some res.errors
           metadata := ⟨sorted.length, res.rulesMatched, ctx.correlationId⟩ })

/-! ## Concrete fixtures used by witnesses and counterexamples -/

/-- A host whose expression libraries always yield `undefined` and whose
regex test always fails to match (no theorem below depends on these
choices where a claim quantifies over hosts). -/
def trivialHost : Host :=
  ⟨fun _ _ => .ok .undefV, fun _ _ => .ok .undefV, fun _ _ => .ok false⟩

/-- Modelled from the spec: §4.5 — the `jexl` library (an external npm
package, not code of this repository) resolves a field-reference expression
from the flat context it is handed.  This host instantiates `jexlEvalSync`
with exactly that behaviour for bare-identifier expressions; its
`parserEvaluate` never matters for them, because an identifier such as
`country` fails `isSimpleMathExpression`, so the repository's own dispatch
in `evaluateExpression` sends it to jexl. -/
def identJexlHost : Host :=
  ⟨fun _ _ => .ok .undefV, fun e env => .ok (objGet env e), fun _ _ => .ok false⟩

/-- A well-formed execution context used as a concrete input. -/
def sampleCtx : ExecutionContext :=
  { userRole := "ADMIN"
    permissions := ["TRADE_EDIT"]
    country := "DE"
    locale := "de-DE"
    deviceType := "WEB"
    isMobile := false
    data := []
    correlationId := "corr-1"
    timestamp := 0 }

/-- A condition that always matches (`all` with no children). -/
def alwaysTrue : Condition := .complex (some []) none none

/-- A concrete enabled rule with the given id, priority and flags. -/
def mkRule (id : String) (p : Int) (stop : Option Bool) (acts : List RuleAction) : Rule :=
  { ruleId := id, name := id, version := "1", enabled := true
    whenC := alwaysTrue, thenA := acts, priority := p, stopOnMatch := stop }

/-! ## C7: condition-algebra identities -/

/-- C7: for every condition, record and context, evaluating `not(not(c))`
gives the same outcome as evaluating `c`; an `all` combinator with an empty
child list evaluates to `true`; an `any` combinator with an empty child list
evaluates to `false`. -/
theorem condition_not_not_and_empty_combinators (h : Host) (data : Obj)
    (ctx : ExecutionContext) (c : Condition) :
    evaluateCondition h data ctx
        (.complex none none (some (.complex none none (some c))))
      = evaluateCondition h data ctx c
    ∧ evaluateCondition h data ctx (.complex (some []) none none) = .ok true
    ∧ evaluateCondition h data ctx (.complex none (some []) none) = .ok false := by
  refine ⟨?_, rfl, rfl⟩
  show (match (match evaluateCondition h data ctx c with
               | .ok b => Except.ok (!b)
               | .error e => .error e) with
        | .ok b => Except.ok (!b)
        | .error e => .error e) = evaluateCondition h data ctx c
  cases evaluateCondition h data ctx c with
  | error e => rfl
  | ok b => cases b <;> rfl

/-! ## C9: no depth bound on condition trees -/

/-- A condition wrapped in `n` layers of the `not` combinator. -/
def nestNot : Nat → Condition → Condition
  | 0, c => c
  | n + 1, c => .complex none none (some (nestNot n c))

/-- C9: condition evaluation enforces no maximum nesting depth at all — a
condition nested under any even number of `not` layers (in particular far
beyond the 32 levels the spec demands be rejected on entry) evaluates
normally to its underlying value instead of being refused.  The recursion in
`evaluateCondition` is plain structural recursion with no depth parameter or
entry check. -/
theorem evaluateCondition_unbounded_depth (h : Host) (data : Obj)
    (ctx : ExecutionContext) : ∀ n : Nat,
    evaluateCondition h data ctx (nestNot (2 * n) alwaysTrue) = .ok true := by
  intro n
  induction n with
  | zero => rfl
  | succ k ih =>
    have h2 : 2 * (k + 1) = 2 * k + 1 + 1 := by ring
    rw [h2]
    show (match (match evaluateCondition h data ctx (nestNot (2 * k) alwaysTrue) with
                 | .ok b => Except.ok (!b)
                 | .error e => .error e) with
          | .ok b => Except.ok (!b)
          | .error e => .error e) = .ok true
    rw [ih]
    rfl

/-! ## C10: the `call` action is a silent no-op -/

/-- C10: an action of type `call` leaves the record unchanged, does not
increment the actions-executed count and raises no error: executing it at
the head of any action list is the same as executing the rest, and executing
it alone returns the record untouched with count `0` and no error. -/
theorem call_action_is_noop (h : Host) (f e : Option String) (v : Option JsVal)
    (rest : List RuleAction) (data : Obj) (ctx : ExecutionContext) :
    executeActions h (⟨.call, f, v, e⟩ :: rest) data ctx
        = executeActions h rest data ctx
    ∧ executeActions h [⟨.call, f, v, e⟩] data ctx = (data, 0, none) := by
  constructor
  · show (let r := executeActions h rest data ctx; (r.1, 0 + r.2.1, r.2.2))
        = executeActions h rest data ctx
    simp
  · rfl

/-! ## C6: the scheduler is a stable descending sort -/

theorem mem_insertByPriority {y r : Rule} {l : List Rule} :
    y ∈ insertByPriority r l ↔ y = r ∨ y ∈ l := by
  induction l with
  | nil => simp [insertByPriority]
  | cons x xs ih =>
    simp only [insertByPriority]
    by_cases hc : x.priority ≤ r.priority
    · simp [hc]
    · simp only [if_neg hc, List.mem_cons, ih]
      tauto

theorem pairwise_insertByPriority {r : Rule} {l : List Rule}
    (hl : List.Pairwise (fun a b => b.priority ≤ a.priority) l) :
    List.Pairwise (fun a b => b.priority ≤ a.priority) (insertByPriority r l) := by
  induction l with
  | nil => simp [insertByPriority]
  | cons x xs ih =>
    rcases List.pairwise_cons.mp hl with ⟨hx, hxs⟩
    simp only [insertByPriority]
    by_cases hc : x.priority ≤ r.priority
    · rw [if_pos hc]
      refine List.pairwise_cons.mpr ⟨?_, hl⟩
      intro y hy
      rcases List.mem_cons.mp hy with rfl | hy'
      · exact hc
      · exact le_trans (hx y hy') hc
    · rw [if_neg hc]
      refine List.pairwise_cons.mpr ⟨?_, ih hxs⟩
      intro y hy
      rcases mem_insertByPriority.mp hy with rfl | hy'
      · exact le_of_not_le hc
      · exact hx y hy'

theorem filter_insertByPriority (r : Rule) (l : List Rule) (p : Int) :
    (insertByPriority r l).filter (fun x => x.priority == p)
      = if r.priority == p
        then r :: l.filter (fun x => x.priority == p)
        else l.filter (fun x => x.priority == p) := by
  induction l with
  | nil =>
    by_cases hq : r.priority = p <;>
      simp [insertByPriority, List.filter_cons, hq]
  | cons x xs ih =>
    simp only [insertByPriority]
    by_cases hc : x.priority ≤ r.priority
    · rw [if_pos hc]
      by_cases hq : r.priority = p <;> simp [List.filter_cons, hq]
    · rw [if_neg hc]
      by_cases hq : r.priority = p
      · have hxp : ¬ x.priority = p := by
          intro hx
          exact absurd (le_of_eq (hx.trans hq.symm)) hc
        simp [List.filter_cons, hxp, ih, hq]
      · by_cases hx : x.priority = p <;>
          simp [List.filter_cons, hx, ih, hq]

/-- C6: the scheduler's ordering is a stable sort by descending integer
priority — the output is pairwise descending, and for every priority the
subsequence of rules carrying that priority is exactly the input's
subsequence in its original order; in particular input priorities
`[10, 20, 10]` yield `[20, 10(first), 10(second)]`. -/
theorem sortRulesByPriority_stable_descending :
    (∀ rules : List Rule,
      List.Pairwise (fun a b => b.priority ≤ a.priority) (sortRulesByPriority rules)
      ∧ ∀ p : Int,
          (sortRulesByPriority rules).filter (fun r => r.priority == p)
            = rules.filter (fun r => r.priority == p))
    ∧ sortRulesByPriority
        [mkRule "first10" 10 none [], mkRule "only20" 20 none [],
         mkRule "second10" 10 none []]
        = [mkRule "only20" 20 none [], mkRule "first10" 10 none [],
           mkRule "second10" 10 none []] := by
  constructor
  · intro rules
    constructor
    · induction rules with
      | nil => simp [sortRulesByPriority]
      | cons r rs ih => exact pairwise_insertByPriority ih
    · intro p
      induction rules with
      | nil => rfl
      | cons r rs ih =>
        rw [sortRulesByPriority, filter_insertByPriority, ih, List.filter_cons]
  · rfl

/-! ## C5: first-match / stopOnMatch halt the pass, `all` evaluates every rule -/

theorem runRules_all_trace_length (h : Host) (ctx : ExecutionContext) :
    ∀ (rules : List Rule) (data : Obj),
      (∀ q ∈ rules, optTrue q.stopOnMatch = false) →
      (runRules h .all rules data ctx).trace.length = rules.length := by
  intro rules
  induction rules with
  | nil => intro data _; rfl
  | cons r rest ih =>
    intro data hstop
    have hr : optTrue r.stopOnMatch = false := hstop r (List.mem_cons_self r rest)
    have hrest : ∀ q ∈ rest, optTrue q.stopOnMatch = false :=
      fun q hq => hstop q (List.mem_cons_of_mem r hq)
    cases hcond : evaluateCondition h data ctx r.whenC with
    | error e => simp [runRules, hcond, ih _ hrest]
    | ok b =>
      cases b with
      | false => simp [runRules, hcond, ih _ hrest]
      | true =>
        cases hact : (executeActions h r.thenA data ctx).2.2 with
        | some e => simp [runRules, hcond, hact, ih _ hrest]
        | none => simp [runRules, hcond, hact, hr, ih _ hrest]

/-- C5: under the `first-match` strategy, or when the matched rule itself
sets `stopOnMatch`, the pass stops right after that rule's actions run — the
later rules contribute nothing to the result; under the `all` strategy, when
no rule sets `stopOnMatch`, every applicable rule is evaluated: the trace
gets one entry per rule no matter how many earlier rules matched. -/
theorem strategy_and_stopOnMatch_semantics (h : Host) (st : Strategy) (r : Rule)
    (rest rules : List Rule) (data : Obj) (ctx : ExecutionContext) :
    (evaluateCondition h data ctx r.whenC = .ok true →
     (executeActions h r.thenA data ctx).2.2 = none →
     (optTrue r.stopOnMatch = true ∨ st = .firstMatch) →
     runRules h st (r :: rest) data ctx =
       ⟨(executeActions h r.thenA data ctx).1,
        [⟨r.ruleId, r.name, true, some true,
          some (executeActions h r.thenA data ctx).2.1, none⟩], [], 1⟩)
    ∧ ((∀ q ∈ rules, optTrue q.stopOnMatch = false) →
       (runRules h .all rules data ctx).trace.length = rules.length) := by
  constructor
  · intro hcond hact hstop
    rcases hstop with hs | hs
    · simp [runRules, hcond, hact, hs]
    · subst hs
      simp [runRules, hcond, hact]
  · exact runRules_all_trace_length h ctx rules data

/-- Witness for C5 at concrete inputs: two always-matching rules; under
`first-match` the pass stops after the first, under `all` both rules are
evaluated. -/
theorem strategy_and_stopOnMatch_semantics_witness :
    runRules trivialHost .firstMatch [mkRule "A" 30 none [], mkRule "B" 10 none []]
        [] sampleCtx
      = ⟨[], [⟨"A", "A", true, some true, some 0, none⟩], [], 1⟩
    ∧ (runRules trivialHost .all [mkRule "A" 30 none [], mkRule "B" 10 none []]
        [] sampleCtx).trace.length = 2 := by
  have h := strategy_and_stopOnMatch_semantics trivialHost .firstMatch
    (mkRule "A" 30 none []) [mkRule "B" 10 none []]
    [mkRule "A" 30 none [], mkRule "B" 10 none []] [] sampleCtx
  exact ⟨h.1 rfl rfl (Or.inr rfl), h.2 (by decide)⟩

/-! ## C1: execute is total only when the request carries a context -/

/-- C1 counterexample: a request without a context makes `execute` reject —
`const data = { ...context.data, ...requestData }` runs before the `try`
block and reads `.data` of `undefined` — so the caller gets a rejected
promise (an exception at the `await`), not a structured `ExecutionResult`. -/
theorem execute_missing_context_rejects :
    execute trivialHost (fun _ => none) { ruleSetId := "RS", context := none }
      = .error "TypeError: Cannot read properties of undefined (reading 'data')"
    ∧ (execute trivialHost (fun _ => none)
        { ruleSetId := "RS", context := none }).isOk = false :=
  ⟨rfl, rfl⟩

/-- C1 amended: for every request that does carry a context (whatever its
ruleset id resolves to), `execute` returns a structured result and never
throws, and every failure mode surfaces as `success = false` together with a
populated (non-empty) errors list. -/
theorem execute_total_with_context (h : Host) (provider : String → Option RuleSet)
    (req : RuleExecutionRequest) (ctx : ExecutionContext)
    (hc : req.context = some ctx) :
    ∃ res : RuleExecutionResult,
      execute h provider req = .ok res
      ∧ (res.success = false ↔ ∃ l, res.errors = some l ∧ l ≠ []) := by
  rw [execute, hc]
  cases hp : provider req.ruleSetId with
  | none =>
    refine ⟨_, rfl, ?_⟩
    simp
  | some ruleSet =>
    refine ⟨_, rfl, ?_⟩
    set res := runRules h ruleSet.strategy
      (sortRulesByPriority (filterRulesByScope ruleSet.rules ctx))
      (jsMergeObj ctx.data (req.data.getD [])) ctx with hres
    by_cases he : res.errors.isEmpty
    · simp [he]
    · simp only [he, if_neg, if_false]
      constructor
      · intro _
        exact ⟨res.errors, rfl, by simpa [List.isEmpty_iff] using he⟩
      · intro _
        simp [he]

/-- Witness for C1 amended at a concrete request whose context is present
and whose ruleset id the provider does not resolve. -/
theorem execute_total_with_context_witness :
    ∃ res : RuleExecutionResult,
      execute trivialHost (fun _ => none)
          { ruleSetId := "RS", context := some sampleCtx } = .ok res
      ∧ (res.success = false ↔ ∃ l, res.errors = some l ∧ l ≠ []) :=
  execute_total_with_context trivialHost (fun _ => none)
    { ruleSetId := "RS", context := some sampleCtx } sampleCtx rfl

/-! ## C4: unresolved ruleset id -/

/-- C4: when the provider does not resolve the ruleset id, the result is
`success = false` with a single fatal error naming the missing ruleset,
`rulesEvaluated = 0`, an empty trace, and the record exactly as it was
copied on entry (no rule was evaluated, no action ran). -/
theorem ruleset_not_found_result (h : Host) (provider : String → Option RuleSet)
    (req : RuleExecutionRequest) (ctx : ExecutionContext)
    (hc : req.context = some ctx) (hp : provider req.ruleSetId = none) :
    execute h provider req = .ok
      { success := false
        data := jsMergeObj ctx.data (req.data.getD [])
        executionTrace := []
        errors := some [⟨"SYSTEM", "RuleSet not found: " ++ req.ruleSetId⟩]
        metadata := ⟨0, 0, ctx.correlationId⟩ } := by
  rw [execute, hc, hp]

/-- Witness for C4 at a concrete request and empty provider. -/
theorem ruleset_not_found_result_witness :
    execute trivialHost (fun _ => none)
        { ruleSetId := "RS", context := some sampleCtx } = .ok
      { success := false
        data := jsMergeObj sampleCtx.data []
        executionTrace := []
        errors := some [⟨"SYSTEM", "RuleSet not found: RS"⟩]
        metadata := ⟨0, 0, sampleCtx.correlationId⟩ } :=
  ruleset_not_found_result trivialHost (fun _ => none)
    { ruleSetId := "RS", context := some sampleCtx } sampleCtx rfl rfl

/-! ## Object lemmas shared by the action claims -/

/-- The last binding a property list contributes for a key (the value a JS
spread of that list leaves behind when the list repeats a key). -/
def lookupLastBinding : Obj → String → Option JsVal
  | [], _ => none
  | kv :: rest, k =>
    match lookupLastBinding rest k with
    | some v => some v
    | none => if kv.1 = k then some kv.2 else none

theorem objGet?_objSet (a : Obj) (j k : String) (v : JsVal) :
    objGet? (objSet a j v) k = if j = k then some v else objGet? a k := by
  induction a with
  | nil =>
    by_cases hjk : j = k
    · simp [objSet, objGet?, List.find?_cons, hjk]
    · have hb : (j == k) = false := by simpa using hjk
      simp [objSet, objGet?, List.find?_cons, hb, hjk]
  | cons kv t ih =>
    by_cases hm : kv.1 = j
    · have hrw : objSet (kv :: t) j v = (kv.1, v) :: t := by simp [objSet, hm]
      rw [hrw]
      by_cases hjk : j = k
      · have hb : (kv.1 == k) = true := by simpa using hm.trans hjk
        simp [objGet?, List.find?_cons, hb, hjk]
      · have hb : (kv.1 == k) = false := by
          simp only [beq_eq_false_iff_ne, ne_eq, hm]
          exact hjk
        simp [objGet?, List.find?_cons, hb, hjk]
    · have hrw : objSet (kv :: t) j v = kv :: objSet t j v := by simp [objSet, hm]
      rw [hrw]
      by_cases hk : kv.1 = k
      · have hjk : ¬ j = k := fun he => hm (hk.trans he.symm)
        have hb : (kv.1 == k) = true := by simpa using hk
        simp [objGet?, List.find?_cons, hb, hjk]
      · have hb : (kv.1 == k) = false := by simpa using hk
        simp only [objGet?, List.find?_cons, hb] at ih ⊢
        simpa using ih

theorem objGet?_jsMergeObj (b a : Obj) (k : String) :
    objGet? (jsMergeObj a b) k
      = match lookupLastBinding b k with
        | some v => some v
        | none => objGet? a k := by
  induction b generalizing a with
  | nil => rfl
  | cons kv rest ih =>
    show objGet? (jsMergeObj (objSet a kv.1 kv.2) rest) k = _
    rw [ih]
    cases hrest : lookupLastBinding rest k with
    | some v => simp [lookupLastBinding, hrest]
    | none =>
      rw [objGet?_objSet]
      by_cases hk : kv.1 = k <;> simp [lookupLastBinding, hrest, hk]

theorem objGet?_none_keys {o : Obj} {k : String} (h : objGet? o k = none) :
    ∀ kv ∈ o, kv.1 ≠ k := by
  intro kv hkv
  unfold objGet? at h
  cases hfind : o.find? (fun kv => kv.1 == k) with
  | some x => rw [hfind] at h; simp at h
  | none =>
    have := List.find?_eq_none.mp hfind kv hkv
    simpa using this

theorem objGet?_cons_none {kv : String × JsVal} {t : Obj} {k : String}
    (h : objGet? (kv :: t) k = none) : kv.1 ≠ k ∧ objGet? t k = none := by
  have hk : kv.1 ≠ k := objGet?_none_keys h kv (List.mem_cons_self kv t)
  have hb : (kv.1 == k) = false := by simpa using hk
  refine ⟨hk, ?_⟩
  unfold objGet? at h ⊢
  simp only [List.find?_cons, hb] at h
  exact h

theorem objSet_absent {o : Obj} {k : String} (v : JsVal)
    (h : objGet? o k = none) : objSet o k v = o ++ [(k, v)] := by
  induction o with
  | nil => rfl
  | cons kv t ih =>
    rcases objGet?_cons_none h with ⟨hk, ht⟩
    simp [objSet, hk, ih ht]

theorem objDelete_absent {o : Obj} {k : String} (h : objGet? o k = none) :
    objDelete o k = o := by
  refine List.filter_eq_self.mpr ?_
  intro kv hkv
  simpa using objGet?_none_keys h kv hkv

/-! ## C2: the environment for Calculate / Set-with-expression -/

/-- C2 counterexample: the spread `{ ...data, ...context }` in the
Calculate and Set-with-expression branches lets the CONTEXT win on key
collision: with record `{country: "XX"}` and a context whose country is
`"DE"`, a Calculate whose expression is the field reference `country`
writes `"DE"` — the record's value does not take precedence.  The expression
runs through the repository's own `evaluateExpression` dispatch:
`country` is not a simple math expression, so it goes to the jexl library,
whose identifier lookup `identJexlHost` models. -/
theorem calculate_env_record_loses_collision :
    objGet (executeActions identJexlHost
        [⟨.calculate, some "fee", none, some "country"⟩]
        [("country", .str "XX")] sampleCtx).1 "fee" = .str "DE"
    ∧ isSimpleMathExpression "country" = false
    ∧ JsVal.str "DE" ≠ .str "XX" :=
  ⟨rfl, rfl, by simp⟩

/-- C2 amended: Calculate and Set-with-expression evaluate the expression
against the union of the record's fields and the context's fields, but on a
key present in both it is the CONTEXT's field value that takes precedence
(the record's value is used exactly for the keys the context does not
carry); the evaluated value is then written at the action's field path. -/
theorem calculate_env_union_context_precedence (data : Obj)
    (ctx : ExecutionContext) (k : String) :
    (∀ v, lookupLastBinding (ctxToObj ctx) k = some v →
      objGet (actionEnv data ctx) k = v)
    ∧ (lookupLastBinding (ctxToObj ctx) k = none →
      objGet (actionEnv data ctx) k = objGet data k)
    ∧ ∀ (h : Host) (f e : String) (v : JsVal) (d : Obj),
        f ≠ "" → e ≠ "" →
        evaluateExpression h e (actionEnv data ctx) = .ok v →
        setFieldValue f v data = .ok d →
        runAction h ⟨.calculate, some f, none, some e⟩ data ctx = .ok (d, 1) := by
  refine ⟨?_, ?_, ?_⟩
  · intro v hv
    unfold objGet actionEnv
    rw [objGet?_jsMergeObj, hv]
    rfl
  · intro hv
    unfold objGet actionEnv
    rw [objGet?_jsMergeObj, hv]
  · intro h f e v d hf he hev hset
    simp [runAction, strTruthy, hf, he, hev, hset, Except.bind, Except.map]

/-- Witness for C2 amended at the colliding key `country`: the environment
resolves it to the context's `"DE"`, and executing the Calculate — whose
expression the in-src dispatch routes to the jexl library — writes that
value. -/
theorem calculate_env_union_context_precedence_witness :
    objGet (actionEnv [("country", .str "XX")] sampleCtx) "country" = .str "DE"
    ∧ runAction identJexlHost ⟨.calculate, some "fee", none, some "country"⟩
        [("country", .str "XX")] sampleCtx
      = .ok ([("country", .str "XX"), ("fee", .str "DE")], 1) := by
  have h := calculate_env_union_context_precedence
    [("country", .str "XX")] sampleCtx "country"
  exact ⟨h.1 (.str "DE") rfl,
    h.2.2 identJexlHost "fee" "country" (.str "DE")
      [("country", .str "XX"), ("fee", .str "DE")]
      (by simp) (by simp) rfl rfl⟩

/-! ## C8: Set then Remove on the same field path -/

/-- C8 counterexample: on the empty record, `Set "a.b" := 1` followed by
`Remove "a.b"` does NOT restore the pre-Set state — `remove` runs
`delete data["a.b"]` with the whole string as a single top-level key and
performs no dot-path resolution, so `a.b` still reads `1` afterwards while
it read `undefined` before. -/
theorem set_remove_not_inverse_on_dotted_path :
    getNestedValue (.obj (executeActions trivialHost
        [⟨.set, some "a.b", some (.num 1), none⟩,
         ⟨.remove, some "a.b", none, none⟩] [] sampleCtx).1) "a.b" = .num 1
    ∧ getNestedValue (.obj ([] : Obj)) "a.b" = .undefV
    ∧ JsVal.num 1 ≠ .undefV :=
  ⟨rfl, rfl, by simp⟩

/-- C8 amended: the round-trip holds exactly in the top-level form: for a
dot-free field path absent from the record before the Set, Set then Remove
returns the record to its pre-Set state (and both actions count as
executed).  Remove deletes only the literal top-level key — it does not
follow the dot-path resolution Set uses — so the round-trip fails for
dotted paths, and a pre-existing value at the key is not restored either
(Remove deletes the key outright). -/
theorem set_then_remove_roundtrip_toplevel (h : Host) (data : Obj)
    (ctx : ExecutionContext) (f : String) (v : JsVal)
    (hsplit : splitDots f = [f]) (hne : f ≠ "")
    (habs : objGet? data f = none) :
    executeActions h
        [⟨.set, some f, some v, none⟩, ⟨.remove, some f, none, none⟩]
        data ctx = (data, 2, none) := by
  have hset : runAction h ⟨.set, some f, some v, none⟩ data ctx
      = .ok (objSet data f v, 1) := by
    simp [runAction, strTruthy, hne, setFieldValue, hsplit, setAtPath,
      Except.map]
  have hdel : objDelete (objSet data f v) f = data := by
    rw [objSet_absent v habs]
    unfold objDelete
    rw [List.filter_append]
    have h1 : List.filter (fun kv : String × JsVal => decide ¬(kv.1 = f)) data
        = data := by
      refine List.filter_eq_self.mpr ?_
      intro kv hkv
      simpa using objGet?_none_keys habs kv hkv
    simp only [ne_eq] at h1 ⊢
    rw [h1]
    simp
  have hrem : runAction h ⟨.remove, some f, none, none⟩ (objSet data f v) ctx
      = .ok (data, 1) := by
    simp [runAction, strTruthy, hne, hdel]
  simp [executeActions, hset, hrem]

/-- Witness for C8 amended: `Set "x" := 1` then `Remove "x"` on a record
that lacks `x` restores it exactly. -/
theorem set_then_remove_roundtrip_toplevel_witness :
    executeActions trivialHost
        [⟨.set, some "x", some (.num 1), none⟩, ⟨.remove, some "x", none, none⟩]
        [("k", .num 9)] sampleCtx = ([("k", .num 9)], 2, none) :=
  set_then_remove_roundtrip_toplevel trivialHost [("k", .num 9)] sampleCtx
    "x" (.num 1) (by decide) (by simp) rfl

/-! ## Heap model (C3)

The pure model above uses value-tree semantics and cannot express reference
sharing.  The frame claim about the execution context is precisely about
sharing: `const data = { ...context.data, ...requestData }` copies only the
top level, so the copied field values that are references still point into
objects owned by the context.  This section models the JS object graph
explicitly — primitives are immediate, objects and arrays live on a heap of
numbered cells — and replays the mutating part of `execute`
(the shallow copy-on-entry and `executeActions`) against it. -/

/-- An immediate (primitive) JS value in the heap model. -/
inductive HPrim where
  | undefV | nullV | boolV (b : Bool) | numV (n : Int) | strV (s : String)
deriving DecidableEq

/-- A JS value as stored in a variable, field or array slot: a primitive or
a reference to a heap cell. -/
inductive HVal where
  | prim (p : HPrim)
  | ref (a : Nat)
deriving DecidableEq

/-- A heap cell: a plain object (insertion-ordered property list) or an
array. -/
inductive HObj where
  | node (fields : List (String × HVal))
  | arrN (elems : List HVal)
deriving DecidableEq

/-- The JS heap: allocated cells and the next fresh address. -/
structure Heap where
  objs : List (Nat × HObj)
  next : Nat

/-- Cell lookup in a cell list. -/
def assocFind : List (Nat × HObj) → Nat → Option HObj
  | [], _ => none
  | e :: t, a => if e.1 = a then some e.2 else assocFind t a

/-- In-place update of the cell at an address. -/
def assocSet : List (Nat × HObj) → Nat → HObj → List (Nat × HObj)
  | [], _, _ => []
  | e :: t, a, o =>
    if e.1 = a then (e.1, o) :: assocSet t a o else e :: assocSet t a o

def Heap.get (h : Heap) (a : Nat) : Option HObj :=
  assocFind h.objs a

def Heap.set (h : Heap) (a : Nat) (o : HObj) : Heap :=
  ⟨assocSet h.objs a o, h.next⟩

/-- Allocate a fresh cell; returns the new heap and the cell's address. -/
def Heap.alloc (h : Heap) (o : HObj) : Heap × Nat :=
  (⟨h.objs ++ [(h.next, o)], h.next + 1⟩, h.next)

/-- Truthiness of a heap value (every object reference is truthy). -/
def falsyH : HVal → Bool
  | .prim .undefV => true
  | .prim .nullV => true
  | .prim (.boolV b) => !b
  | .prim (.numV n) => n == 0
  | .prim (.strV s) => s == ""
  | .ref _ => false

/-- Property read on a heap cell (`undefined` when absent; arrays answer
`length` and numeric indices). -/
def objGetH (o : HObj) (k : String) : HVal :=
  match o with
  | .node fields => ((fields.find? (fun kv => kv.1 == k)).map (·.2)).getD (.prim .undefV)
  | .arrN xs =>
    if k = "length" then .prim (.numV xs.length)
    else match k.toNat? with
      | some i => (xs.get? i).getD (.prim .undefV)
      | none => .prim .undefV

/-- Property write on a plain object's field list (overwrite in place or
append). -/
def nodeSet (fields : List (String × HVal)) (k : String) (v : HVal) :
    List (String × HVal) :=
  match fields with
  | [] => [(k, v)]
  | (k', v') :: rest =>
    if k' = k then (k', v) :: rest else (k', v') :: nodeSet rest k v

/-- JS spread `{...a, ...b}` on two field lists (right operand wins). -/
def nodeMerge (a b : List (String × HVal)) : List (String × HVal) :=
  b.foldl (fun acc kv => nodeSet acc kv.1 kv.2) a

/-- `getNestedValue` over the heap: follow the path, dereferencing cells;
reads of properties of primitives yield `undefined` (character indexing of
primitive strings is not modelled — no claim touches it). -/
def getPathH : List String → Heap → HVal → HVal
  | [], _, v => v
  | p :: rest, h, v =>
    match v with
    | .ref a =>
      match h.get a with
      | some o => getPathH rest h (objGetH o p)
      | none => getPathH rest h (.prim .undefV)
    | .prim _ => getPathH rest h (.prim .undefV)

/-- `setFieldValue` over the heap: walk the split path from the record's
cell, replacing falsy intermediate values by freshly allocated `{}` cells
(the walk mutates the heap as it goes); walking into a truthy primitive, or
an array write the value model cannot express (beyond-length index, expando
property), ends in a strict-mode `TypeError` — the boolean result reports
whether the walk threw. -/
def setFieldH : List String → Heap → Nat → HVal → Heap × Bool
  | [], h, _, _ => (h, true)
  | [last], h, a, v =>
    (match h.get a with
     | some (.node fields) => (h.set a (.node (nodeSet fields last v)), false)
     | some (.arrN xs) =>
       (match last.toNat? with
        | some i =>
          if i < xs.length then (h.set a (.arrN (xs.set i v)), false)
          else if i = xs.length then (h.set a (.arrN (xs ++ [v])), false)
          else (h, true)
        | none => (h, true))
     | none => (h, true))
  | p :: q :: rest, h, a, v =>
    (match h.get a with
     | some (.node fields) =>
       let child := objGetH (.node fields) p
       if falsyH child then
         let al := h.alloc (.node [])
         setFieldH (q :: rest) (al.1.set a (.node (nodeSet fields p (.ref al.2))))
           al.2 v
       else
         (match child with
          | .ref b => setFieldH (q :: rest) h b v
          | .prim _ => (h, true))
     | some (.arrN xs) =>
       (match p.toNat? with
        | some i =>
          let child := (xs.get? i).getD (.prim .undefV)
          if falsyH child then
            (if i < xs.length then
               let al := h.alloc (.node [])
               setFieldH (q :: rest) (al.1.set a (.arrN (xs.set i (.ref al.2))))
                 al.2 v
             else (h, true))
          else
            (match child with
             | .ref b => setFieldH (q :: rest) h b v
             | .prim _ => (h, true))
        | none => (h, true))
     | none => (h, true))

/-- The mirror of `RuleAction` for the heap model: a literal value enters
the heap model as a heap value (a primitive, or a reference to a cell that
already holds the parsed literal). -/
structure HAction where
  type : ActionType
  field : Option String := none
  value : Option HVal := none
  expression : Option String := none

/-- The heap model's host expression evaluator (§4.5): a pure function of
the expression and the flat environment it is handed — sandboxed, it can
read the environment's values but cannot mutate the heap. -/
structure HHost where
  exprEvalH : String → List (String × HVal) → Except String HVal

/-- The top-level field lists of the record cell and the context cell,
merged `{ ...data, ...context }` for the expression environment. -/
def actionEnvH (h : Heap) (d ctxAddr : Nat) : List (String × HVal) :=
  let df := match h.get d with | some (.node fs) => fs | _ => []
  let cf := match h.get ctxAddr with | some (.node fs) => fs | _ => []
  nodeMerge df cf

/-- `getFieldValue` over the heap (`context.`-prefixed paths resolve from
the context cell). -/
def getFieldValueH (field : String) (h : Heap) (d ctxAddr : Nat) : HVal :=
  if field.startsWith "context." then
    getPathH (splitDots (field.drop 8)) h (.ref ctxAddr)
  else
    getPathH (splitDots field) h (.ref d)

/-- One arm of the action switch over the heap: returns the heap after the
action, the `executed` increment, and whether the arm threw. -/
def runActionH (hh : HHost) (a : HAction) (h : Heap) (d ctxAddr : Nat) :
    Heap × Nat × Bool :=
  match a.type with
  | .set =>
    if strTruthy a.field ∧ a.value.isSome then
      let r := setFieldH (splitDots (a.field.getD "")) h d (a.value.getD (.prim .undefV))
      (r.1, if r.2 then 0 else 1, r.2)
    else if strTruthy a.field ∧ strTruthy a.expression then
      (match hh.exprEvalH (a.expression.getD "") (actionEnvH h d ctxAddr) with
       | .ok v =>
         let r := setFieldH (splitDots (a.field.getD "")) h d v
         (r.1, if r.2 then 0 else 1, r.2)
       | .error _ => (h, 0, true))
    else (h, 0, false)
  | .append =>
    if strTruthy a.field ∧ a.value.isSome then
      -- `current.push(value)` mutates the resolved array cell in place —
      -- including a cell reachable from the context.
      (match getFieldValueH (a.field.getD "") h d ctxAddr with
       | .ref b =>
         (match h.get b with
          | some (.arrN xs) =>
            (h.set b (.arrN (xs ++ [a.value.getD (.prim .undefV)])), 1, false)
          | _ => (h, 0, false))
       | _ => (h, 0, false))
    else (h, 0, false)
  | .remove =>
    if strTruthy a.field then
      (match h.get d with
       | some (.node fields) =>
         (h.set d (.node (fields.filter (fun kv => kv.1 ≠ a.field.getD ""))), 1, false)
       | _ => (h, 1, false))
    else (h, 0, false)
  | .calculate =>
    if strTruthy a.field ∧ strTruthy a.expression then
      (match hh.exprEvalH (a.expression.getD "") (actionEnvH h d ctxAddr) with
       | .ok v =>
         let r := setFieldH (splitDots (a.field.getD "")) h d v
         (r.1, if r.2 then 0 else 1, r.2)
       | .error _ => (h, 0, true))
    else (h, 0, false)
  | .call => (h, 0, false)

/-- `executeActions` over the heap: run in order, abort after the first
throwing action (its heap effects so far persist). -/
def executeActionsH (hh : HHost) :
    List HAction → Heap → Nat → Nat → Heap × Nat × Bool
  | [], h, _, _ => (h, 0, false)
  | a :: rest, h, d, ctxAddr =>
    let r := runActionH hh a h d ctxAddr
    if r.2.2 then (r.1, r.2.1, true)
    else
      let r2 := executeActionsH hh rest r.1 d ctxAddr
      (r2.1, r.2.1 + r2.2.1, r2.2.2)

/-- The mutating slice of `execute` over the heap: shallow-copy the record
on entry — `{ ...context.data, ...requestData }` allocates ONE fresh cell
whose field values (references included) are shared with the context's data
— then run the matched actions.  Returns the final heap, the record cell's
address, the executed count and the threw flag.  (Condition evaluation only
reads the heap and is omitted.) -/
def executeH (hh : HHost) (h : Heap) (ctxAddr : Nat)
    (reqFields : List (String × HVal)) (actions : List HAction) :
    Heap × Nat × Nat × Bool :=
  let cf := match h.get ctxAddr with | some (.node fs) => fs | _ => []
  let baseFields :=
    match ((cf.find? (fun kv => kv.1 == "data")).map (·.2)).getD (.prim .undefV) with
    | .ref cd => (match h.get cd with | some (.node dfs) => dfs | _ => [])
    | _ => []
  let al := h.alloc (.node (nodeMerge baseFields reqFields))
  let r := executeActionsH hh actions al.1 al.2 ctxAddr
  (r.1, al.2, r.2.1, r.2.2)

/-- The tree read back from the heap by following references (`depthCut`
marks exhausted fuel, `dangling` a reference to no cell). -/
inductive HTree where
  | prim (p : HPrim)
  | nodeT (fields : List (String × HTree))
  | arrT (elems : List HTree)
  | dangling
  | depthCut

/-- Read the whole value graph reachable from a heap value, to the given
depth. -/
def readVal (h : Heap) : Nat → HVal → HTree
  | _, .prim p => .prim p
  | 0, .ref _ => .depthCut
  | fuel + 1, .ref a =>
    match h.get a with
    | some (.node fields) =>
      .nodeT (fields.map (fun kv => (kv.1, readVal h fuel kv.2)))
    | some (.arrN xs) => .arrT (xs.map (readVal h fuel))
    | none => .dangling

/-- A heap value whose reference (if any) points below `n`. -/
def hvalBelow (n : Nat) : HVal → Bool
  | .prim _ => true
  | .ref a => a < n

/-- A heap cell all of whose stored references point below `n`. -/
def hobjBelow (n : Nat) : HObj → Bool
  | .node fields => fields.all (fun kv => hvalBelow n kv.2)
  | .arrN xs => xs.all (hvalBelow n)

/-- Well-formed heap: every allocated address and every stored reference
lies below `next`. -/
def heapWF (h : Heap) : Bool :=
  h.objs.all (fun e => decide (e.1 < h.next) && hobjBelow h.next e.2)

/-- Actions whose writes stay at the top level of the record cell: Set and
Calculate with a single-segment (dot-free) field path, Remove (always
top-level) and the no-op `call`.  Append and dotted Set/Calculate are
excluded — they are exactly the mutations that can reach cells shared with
the context. -/
def topLevelSafe (a : HAction) : Bool :=
  match a.type with
  | .set => (splitDots (a.field.getD "")).length == 1
  | .calculate => (splitDots (a.field.getD "")).length == 1
  | .remove => true
  | .call => true
  | .append => false

/-! ### Frame lemmas for the heap model -/

theorem assocFind_assocSet_ne {a b : Nat} (o : HObj)
    (l : List (Nat × HObj)) (hab : a ≠ b) :
    assocFind (assocSet l b o) a = assocFind l a := by
  have hba : ¬ b = a := fun h2 => hab h2.symm
  induction l with
  | nil => rfl
  | cons e t ih =>
    by_cases he : e.1 = b
    · simp [assocSet, assocFind, he, hba, ih]
    · by_cases hea : e.1 = a <;>
        simp [assocSet, assocFind, he, hea, hab, hba, ih]

theorem Heap.get_set_ne {h : Heap} {a b : Nat} (o : HObj) (hab : a ≠ b) :
    (h.set b o).get a = h.get a :=
  assocFind_assocSet_ne o h.objs hab

theorem assocFind_append (l₁ l₂ : List (Nat × HObj)) (a : Nat) :
    assocFind (l₁ ++ l₂) a =
      match assocFind l₁ a with
      | some o => some o
      | none => assocFind l₂ a := by
  induction l₁ with
  | nil => rfl
  | cons e t ih =>
    by_cases he : e.1 = a <;> simp [assocFind, he, ih]

theorem Heap.get_alloc_ne {h : Heap} {a : Nat} (o : HObj) (ha : a ≠ h.next) :
    ((h.alloc o).1).get a = h.get a := by
  show assocFind (h.objs ++ [(h.next, o)]) a = assocFind h.objs a
  rw [assocFind_append]
  cases hf : assocFind h.objs a with
  | some x => rfl
  | none =>
    have hna : ¬ h.next = a := fun h2 => ha h2.symm
    simp [assocFind, hna]

theorem assocFind_mem {l : List (Nat × HObj)} {a : Nat} {o : HObj}
    (hf : assocFind l a = some o) : (a, o) ∈ l := by
  induction l with
  | nil => simp [assocFind] at hf
  | cons e t ih =>
    by_cases he : e.1 = a
    · simp only [assocFind, he, if_pos] at hf
      have : e = (a, o) := by
        cases e
        simp only [Option.some.injEq] at hf
        simp_all
      rw [← this]
      exact List.mem_cons_self e t
    · simp only [assocFind, he, if_neg, ite_false] at hf
      exact List.mem_cons_of_mem e (ih hf)

theorem heapWF_get_below {h : Heap} (hwf : heapWF h = true) {a : Nat}
    {o : HObj} (hget : h.get a = some o) : hobjBelow h.next o = true := by
  have hmem : (a, o) ∈ h.objs := assocFind_mem hget
  have := List.all_eq_true.mp hwf (a, o) hmem
  exact (Bool.and_eq_true_iff.mp this).2

theorem readVal_frame {h h' : Heap} {n : Nat}
    (hagree : ∀ a, a < n → h'.get a = h.get a)
    (hclosed : ∀ a o, h.get a = some o → hobjBelow n o = true) :
    ∀ (fuel : Nat) (v : HVal), hvalBelow n v = true →
      readVal h' fuel v = readVal h fuel v := by
  intro fuel
  induction fuel with
  | zero =>
    intro v _
    cases v with
    | prim p => rfl
    | ref a => rfl
  | succ k ih =>
    intro v hv
    cases v with
    | prim p => rfl
    | ref a =>
      have ha : a < n := by simpa [hvalBelow] using hv
      show (match h'.get a with
            | some (.node fields) =>
              HTree.nodeT (fields.map
                (fun kv : String × HVal => (kv.1, readVal h' k kv.2)))
            | some (.arrN xs) => .arrT (xs.map (readVal h' k))
            | none => .dangling)
          = (match h.get a with
             | some (.node fields) =>
               HTree.nodeT (fields.map
                 (fun kv : String × HVal => (kv.1, readVal h k kv.2)))
             | some (.arrN xs) => .arrT (xs.map (readVal h k))
             | none => .dangling)
      rw [hagree a ha]
      cases hget : h.get a with
      | none => rfl
      | some o =>
        cases o with
        | node fields =>
          have hb := hclosed a _ hget
          simp only [hobjBelow, List.all_eq_true] at hb
          simp only [HTree.nodeT.injEq]
          apply List.map_congr_left
          intro kv hkv
          rw [ih kv.2 (hb kv hkv)]
        | arrN xs =>
          have hb := hclosed a _ hget
          simp only [hobjBelow, List.all_eq_true] at hb
          simp only [HTree.arrT.injEq]
          apply List.map_congr_left
          intro x hx
          exact ih x (hb x hx)

theorem setFieldH_single_frame (h : Heap) (d : Nat) (last : String)
    (v : HVal) {b : Nat} (hbd : b ≠ d) :
    (setFieldH [last] h d v).1.get b = h.get b := by
  show (match h.get d with
        | some (.node fields) => ((h.set d (.node (nodeSet fields last v))), false)
        | some (.arrN xs) =>
          (match last.toNat? with
           | some i =>
             if i < xs.length then (h.set d (.arrN (xs.set i v)), false)
             else if i = xs.length then (h.set d (.arrN (xs ++ [v])), false)
             else (h, true)
           | none => (h, true))
        | none => (h, true)).1.get b = h.get b
  cases h.get d with
  | none => rfl
  | some o =>
    cases o with
    | node fields => exact Heap.get_set_ne _ hbd
    | arrN xs =>
      cases last.toNat? with
      | none => rfl
      | some i =>
        dsimp only
        by_cases h1 : i < xs.length
        · rw [if_pos h1]
          exact Heap.get_set_ne _ hbd
        · rw [if_neg h1]
          by_cases h2 : i = xs.length
          · rw [if_pos h2]
            exact Heap.get_set_ne _ hbd
          · rw [if_neg h2]

theorem runActionH_frame (hh : HHost) (a : HAction) (h : Heap)
    (d ctxAddr : Nat) (hsafe : topLevelSafe a = true) {b : Nat} (hbd : b ≠ d) :
    (runActionH hh a h d ctxAddr).1.get b = h.get b := by
  cases hty : a.type with
  | set =>
    have hlen : (splitDots (a.field.getD "")).length = 1 := by
      simpa [topLevelSafe, hty] using hsafe
    rcases List.length_eq_one.mp hlen with ⟨last, hl⟩
    simp only [runActionH, hty]
    by_cases h1 : strTruthy a.field = true ∧ a.value.isSome = true
    · rw [if_pos h1, hl]
      exact setFieldH_single_frame h d last _ hbd
    · rw [if_neg h1]
      by_cases h2 : strTruthy a.field = true ∧ strTruthy a.expression = true
      · rw [if_pos h2]
        cases hh.exprEvalH (a.expression.getD "") (actionEnvH h d ctxAddr) with
        | ok v =>
          dsimp only
          rw [hl]
          exact setFieldH_single_frame h d last v hbd
        | error e => rfl
      · rw [if_neg h2]
  | calculate =>
    have hlen : (splitDots (a.field.getD "")).length = 1 := by
      simpa [topLevelSafe, hty] using hsafe
    rcases List.length_eq_one.mp hlen with ⟨last, hl⟩
    simp only [runActionH, hty]
    by_cases h1 : strTruthy a.field = true ∧ strTruthy a.expression = true
    · rw [if_pos h1]
      cases hh.exprEvalH (a.expression.getD "") (actionEnvH h d ctxAddr) with
      | ok v =>
        dsimp only
        rw [hl]
        exact setFieldH_single_frame h d last v hbd
      | error e => rfl
    · rw [if_neg h1]
  | remove =>
    simp only [runActionH, hty]
    by_cases h1 : strTruthy a.field = true
    · rw [if_pos h1]
      cases h.get d with
      | none => rfl
      | some o =>
        cases o with
        | node fields => exact Heap.get_set_ne _ hbd
        | arrN xs => rfl
    · rw [if_neg h1]
  | append => simp [topLevelSafe, hty] at hsafe
  | call => simp only [runActionH, hty]

theorem executeActionsH_frame (hh : HHost) :
    ∀ (actions : List HAction) (h : Heap) (d ctxAddr : Nat),
      actions.all topLevelSafe = true →
      ∀ b, b ≠ d → (executeActionsH hh actions h d ctxAddr).1.get b = h.get b := by
  intro actions
  induction actions with
  | nil => intro h d ctxAddr _ b _; rfl
  | cons a rest ih =>
    intro h d ctxAddr hsafe b hbd
    have hsa : topLevelSafe a = true :=
      List.all_eq_true.mp hsafe a (List.mem_cons_self a rest)
    have hsr : rest.all topLevelSafe = true :=
      List.all_eq_true.mpr
        (fun x hx => List.all_eq_true.mp hsafe x (List.mem_cons_of_mem a hx))
    simp only [executeActionsH]
    by_cases hthrew : (runActionH hh a h d ctxAddr).2.2 = true
    · rw [if_pos hthrew]
      exact runActionH_frame hh a h d ctxAddr hsa hbd
    · rw [if_neg hthrew]
      dsimp only
      rw [ih (runActionH hh a h d ctxAddr).1 d ctxAddr hsr b hbd]
      exact runActionH_frame hh a h d ctxAddr hsa hbd

/-! ### C3 theorems -/

/-- The execution context graph used in the C3 counterexample: cell 0 is the
context object, its `data` field refers to cell 1, whose field `a` refers to
cell 2 holding `{b: 1}`. -/
def cxHeap : Heap :=
  ⟨[(0, .node [("data", .ref 1)]), (1, .node [("a", .ref 2)]),
    (2, .node [("b", .prim (.numV 1))])], 3⟩

/-- Heap-model host whose expression evaluator always yields `undefined`. -/
def cxHost : HHost := ⟨fun _ _ => .ok (.prim .undefV)⟩

/-- C3 counterexample: the record copy is shallow, so a Set on the dotted
path `a.b` walks through the reference shared with the context and mutates
cell 2 — an object reachable from the ExecutionContext — in place: the tree
readable from the context after `execute` differs from the tree before. -/
theorem context_mutated_by_nested_set :
    readVal (executeH cxHost cxHeap 0 []
        [⟨.set, some "a.b", some (.prim (.numV 2)), none⟩]).1 4 (.ref 0)
      = .nodeT [("data", .nodeT [("a", .nodeT [("b", .prim (.numV 2))])])]
    ∧ readVal cxHeap 4 (.ref 0)
      = .nodeT [("data", .nodeT [("a", .nodeT [("b", .prim (.numV 1))])])]
    ∧ HTree.nodeT [("data", .nodeT [("a", .nodeT [("b", .prim (.numV 2))])])]
      ≠ .nodeT [("data", .nodeT [("a", .nodeT [("b", .prim (.numV 1))])])] :=
  ⟨rfl, rfl, by simp⟩

/-- C3 amended: the context's top-level data object is never mutated —
the record is a fresh cell — and when every action writes only at the top
level of the record (Set/Calculate on dot-free paths, Remove, `call`), the
whole object graph reachable from the ExecutionContext is unchanged after
execution.  Nested (dotted) Set/Calculate paths and Append, by contrast,
can mutate objects reachable from the context, because the copy-on-entry is
shallow and nested objects and arrays stay shared (see the
counterexample). -/
theorem execute_preserves_context_toplevel_actions (hh : HHost) (h : Heap)
    (ctxAddr : Nat) (reqFields : List (String × HVal)) (actions : List HAction)
    (hwf : heapWF h = true) (hctx : ctxAddr < h.next)
    (hsafe : actions.all topLevelSafe = true) :
    ∀ fuel : Nat,
      readVal (executeH hh h ctxAddr reqFields actions).1 fuel (.ref ctxAddr)
        = readVal h fuel (.ref ctxAddr) := by
  intro fuel
  have hagree : ∀ a, a < h.next →
      (executeH hh h ctxAddr reqFields actions).1.get a = h.get a := by
    intro a ha
    have hne : a ≠ h.next := Nat.ne_of_lt ha
    show (executeActionsH hh actions
        ((h.alloc _).1) h.next ctxAddr).1.get a = h.get a
    rw [executeActionsH_frame hh actions _ h.next ctxAddr hsafe a hne]
    exact Heap.get_alloc_ne _ hne
  exact readVal_frame hagree (fun a o hget => heapWF_get_below hwf hget)
    fuel (.ref ctxAddr) (by simpa [hvalBelow] using hctx)

/-- Witness for C3 amended on the concrete context graph: a top-level
`Set "x" := 7` leaves everything reachable from the context untouched. -/
theorem execute_preserves_context_toplevel_actions_witness :
    readVal (executeH cxHost cxHeap 0 []
        [⟨.set, some "x", some (.prim (.numV 7)), none⟩]).1 4 (.ref 0)
      = readVal cxHeap 4 (.ref 0) :=
  execute_preserves_context_toplevel_actions cxHost cxHeap 0 []
    [⟨.set, some "x", some (.prim (.numV 7)), none⟩]
    (by decide) (by decide) (by decide) 4

end RuleFlow
